import Mathlib

/-!
Shallow embedding of the sqlhild query-processor core, translated from the
Python sources (`sqlhild/iterator.py`, `sqlhild/relational_algebra.py`,
`sqlhild/relational_algebra_optimizers.py`, `sqlhild/ra2iter.py`,
`sqlhild/column.py`, `sqlhild/utils.py`), together with theorems settling the
specification claims about it.

Modelling conventions:
* SQL values are `Value`: `vnull` embeds Python `None`, `vint` embeds Python
  numbers (Python `bool` is a subclass of `int`, so booleans are embedded as
  their numeric value), `vstr` embeds strings.  Float columns are exercised by
  no claim and are omitted.
* Rows are `List Value`, exactly the Python tuples flowing between iterators.
* Python iterators consumed by an iterator's `produce` are embedded as the
  finite list of rows they yield; a `produce` generator becomes a function
  from input row lists to the output row list.
* `Value.ltB` is the strict comparison used by `produce` loops; on values of
  one kind it is Python's `<`, across kinds it follows the total value order
  of the specification (Null least, then numbers, then text).
-/

namespace Sqlhild

/-- A scalar value flowing through the pipeline (spec §3.1).  Python `bool`
is a subclass of `int`, so `True`/`False` are embedded as `vint 1`/`vint 0`. -/
inductive Value where
  | vnull : Value
  | vint (z : Int) : Value
  | vstr (s : String) : Value
deriving DecidableEq, Repr

/-- Strict comparison of values: Python `<` within one kind, and the spec's
total value order (Null < numbers < text) across kinds. -/
def Value.ltB : Value → Value → Bool
  | .vnull, .vnull => false
  | .vnull, .vint _ => true
  | .vnull, .vstr _ => true
  | .vint _, .vnull => false
  | .vint m, .vint n => decide (m < n)
  | .vint _, .vstr _ => true
  | .vstr _, .vnull => false
  | .vstr _, .vint _ => false
  | .vstr s, .vstr t => decide (s < t)

theorem Value.ltB_irrefl (v : Value) : Value.ltB v v = false := by
  cases v <;> simp [Value.ltB]

theorem Value.ltB_trans {a b c : Value} (hab : Value.ltB a b = true)
    (hbc : Value.ltB b c = true) : Value.ltB a c = true := by
  cases a <;> cases b <;> cases c <;>
    simp only [Value.ltB, decide_eq_true_eq] at * <;>
    first
    | rfl
    | exact Bool.noConfusion hab
    | exact Bool.noConfusion hbc
    | omega
    | exact lt_trans hab hbc

theorem Value.ltB_connex {a b : Value} (hab : Value.ltB a b = false)
    (hba : Value.ltB b a = false) : a = b := by
  cases a <;> cases b <;>
    simp only [Value.ltB, decide_eq_false_iff_not, not_lt] at * <;>
    first
    | rfl
    | exact Bool.noConfusion hab
    | exact Bool.noConfusion hba
    | exact congrArg Value.vint (le_antisymm hba hab)
    | exact congrArg Value.vstr (le_antisymm hba hab)

theorem Value.ltB_asymm {a b : Value} (hab : Value.ltB a b = true) :
    Value.ltB b a = false := by
  cases hh : Value.ltB b a with
  | false => rfl
  | true =>
    have h2 := Value.ltB_trans hab hh
    rw [Value.ltB_irrefl] at h2
    exact Bool.noConfusion h2

/-- `ltB a b = false` is transitive (the "not greater" relation giving
sortedness of the streams fed to the merge joins). -/
theorem Value.ltB_false_trans {a b c : Value} (hab : Value.ltB b a = false)
    (hbc : Value.ltB c b = false) : Value.ltB c a = false := by
  cases h : Value.ltB c a with
  | false => rfl
  | true =>
    cases hbc2 : Value.ltB b c with
    | true =>
      have h2 := Value.ltB_trans hbc2 h
      rw [hab] at h2
      exact Bool.noConfusion h2
    | false =>
      rcases Value.ltB_connex hbc hbc2 with rfl
      rw [hab] at h
      exact Bool.noConfusion h

/-- A row: an ordered sequence of values (spec §3.2). -/
abbrev Row := List Value

/-- `row[idx]` for the join-column accesses; the theorems always carry the
bound `idx < row.length` under which the default is never used (Python would
raise `IndexError` outside that bound). -/
def rowKey (i : Nat) (r : Row) : Value := r.getD i Value.vnull

/-- Python truthiness of a row inside `while a and b`: a `None` (exhausted
stream) is handled by the `Option`/match structure; an empty tuple is falsy. -/
def truthyRow (r : Row) : Bool := !r.isEmpty

/-- Python tuple comparison on rows: lexicographic, a strict prefix is
smaller.  This is the order on whole rows used by `Sorted`/`DistinctMerge`. -/
def rowLtB : Row → Row → Bool
  | [], [] => false
  | [], _ :: _ => true
  | _ :: _, [] => false
  | x :: xs, y :: ys => if x = y then rowLtB xs ys else Value.ltB x y

/-- Non-decreasing sequence of rows under the total value order: the property
the specification attaches to a true `sorted` flag. -/
def nonDecreasingRows (l : List Row) : Prop :=
  l.Chain' fun x y => rowLtB y x = false

/-- Executable check for `nonDecreasingRows`. -/
def nonDecreasingRowsB : List Row → Bool
  | [] => true
  | [_] => true
  | x :: y :: rest => !rowLtB y x && nonDecreasingRowsB (y :: rest)

theorem nonDecreasingRowsB_iff :
    ∀ l : List Row, nonDecreasingRowsB l = true ↔ nonDecreasingRows l := by
  intro l
  match l with
  | [] => simp [nonDecreasingRowsB, nonDecreasingRows]
  | [x] => simp [nonDecreasingRowsB, nonDecreasingRows]
  | x :: y :: rest =>
    rw [nonDecreasingRows, List.chain'_cons, ← nonDecreasingRows,
      ← nonDecreasingRowsB_iff (y :: rest)]
    simp [nonDecreasingRowsB]

instance (l : List Row) : Decidable (nonDecreasingRows l) :=
  decidable_of_iff _ (nonDecreasingRowsB_iff l)

/-!
## `Limit` and `Offset` (`iterator.py`, classes `Limit` and `Offset`)

`Limit.produce` counts rows and breaks once `limit <= count`;
`Offset.produce` counts rows and yields once `offset <= count`.
-/

/-- Loop body of `Limit.produce` with its running `count`. -/
def limitProduceAux (limit : Nat) (count : Nat) : List Row → List Row
  | [] => []
  | r :: rs =>
    if limit ≤ count then []
    else r :: limitProduceAux limit (count + 1) rs

/-- `Limit(source, limit).produce()` over the source's row list. -/
def limitProduce (limit : Nat) (rows : List Row) : List Row :=
  limitProduceAux limit 0 rows

/-- Loop body of `Offset.produce` with its running `count`. -/
def offsetProduceAux (offset : Nat) (count : Nat) : List Row → List Row
  | [] => []
  | r :: rs =>
    if offset ≤ count then r :: offsetProduceAux offset (count + 1) rs
    else offsetProduceAux offset (count + 1) rs

/-- `Offset(source, offset).produce()` over the source's row list. -/
def offsetProduce (offset : Nat) (rows : List Row) : List Row :=
  offsetProduceAux offset 0 rows

theorem limitProduceAux_eq_take (limit : Nat) :
    ∀ (rows : List Row) (count : Nat),
      limitProduceAux limit count rows = rows.take (limit - count) := by
  intro rows
  induction rows with
  | nil => intro count; simp [limitProduceAux]
  | cons r rs ih =>
    intro count
    by_cases h : limit ≤ count
    · have : limit - count = 0 := Nat.sub_eq_zero_of_le h
      simp [limitProduceAux, h, this]
    · have h1 : limit - count = (limit - (count + 1)) + 1 := by omega
      simp [limitProduceAux, h, h1, ih]

theorem offsetProduceAux_eq_drop (offset : Nat) :
    ∀ (rows : List Row) (count : Nat),
      offsetProduceAux offset count rows = rows.drop (offset - count) := by
  intro rows
  induction rows with
  | nil => intro count; simp [offsetProduceAux]
  | cons r rs ih =>
    intro count
    by_cases h : offset ≤ count
    · have h0 : offset - count = 0 := Nat.sub_eq_zero_of_le h
      have h1 : offset - (count + 1) = 0 := by omega
      simp [offsetProduceAux, h, h0, h1, ih]
    · have h1 : offset - count = (offset - (count + 1)) + 1 := by omega
      simp [offsetProduceAux, h, h1, ih]

/-!
## `Cross` and `Tee` (`iterator.py`, classes `Cross` and `Tee`)

`Cross.__init__` sets `sorted = all(source.sorted for source in sources)`;
`Cross.produce` materializes the right side and yields `TupleTuple(a, b)` for
each left row `a` and each right row `b` (left-major order); the composite is
externally the concatenation of the two rows.  `Tee.__init__` sets
`sorted = True` unconditionally and `Tee.produce` replays the tee'd source
iterator unchanged.
-/

/-- The pair of observable attributes of a physical iterator used by the
sortedness claims: its emitted row sequence and its `sorted` flag. -/
structure SimpleIter where
  rows : List Row
  sorted : Bool
deriving DecidableEq, Repr

/-- Row sequence of `Cross.produce` (flattened composite rows). -/
def crossProduce (arows brows : List Row) : List Row :=
  arows.flatMap fun a => brows.map fun b => a ++ b

/-- The `Cross` iterator over two sources. -/
def crossIter (a b : SimpleIter) : SimpleIter :=
  ⟨crossProduce a.rows b.rows, a.sorted && b.sorted⟩

/-- The `Tee` iterator over one source. -/
def teeIter (s : SimpleIter) : SimpleIter :=
  ⟨s.rows, true⟩

/-!
## `TupleTuple` (`utils.py`)

The adapter that makes the tuples of a composite (join output) row act as a
single flat tuple.  A parent tuple is embedded with the Python object id it
had at construction time, since `TupleTuple.__init__` stores
`self.ids = tuple(map(id, self.tuples))` and `__eq__`/`__lt__` compare those
ids.  Distinct live Python objects have distinct ids, even when their values
are equal.
-/

/-- A parent Python tuple: its object id and its values. -/
structure PyTuple where
  pid : Nat
  vals : List Value
deriving DecidableEq, Repr

/-- The state of a `TupleTuple` after `__init__`: the flattened list of
parent tuples (nested `TupleTuple` arguments contribute their parents). -/
structure TupleTuple where
  tuples : List PyTuple
deriving DecidableEq, Repr

/-- `TupleTuple.__init__` flattening of the constructor arguments. -/
def mkTupleTuple (args : List (PyTuple ⊕ TupleTuple)) : TupleTuple :=
  ⟨args.flatMap fun a =>
    match a with
    | .inl t => [t]
    | .inr tt => tt.tuples⟩

/-- `self.len = sum(map(len, self.tuples))`, returned by `__len__`. -/
def ttLen (t : TupleTuple) : Nat :=
  (t.tuples.map fun tup => tup.vals.length).sum

/-- `self.ids = tuple(map(id, self.tuples))`. -/
def ttIds (t : TupleTuple) : List Nat :=
  t.tuples.map PyTuple.pid

/-- `__getitem__`: walk the parents, return `none` where Python raises
`IndexError`. -/
def ttGetAux : List PyTuple → Nat → Option Value
  | [], _ => none
  | tup :: rest, k =>
    if k < tup.vals.length then tup.vals.get? k
    else ttGetAux rest (k - tup.vals.length)

def ttGet (t : TupleTuple) (k : Nat) : Option Value :=
  ttGetAux t.tuples k

/-- `__iter__`: the values of the parents in order. -/
def ttFlatten (t : TupleTuple) : List Value :=
  t.tuples.flatMap PyTuple.vals

/-- `__eq__`: `self.ids == other.ids` — identity of the parents, not their
values. -/
def ttEq (t u : TupleTuple) : Bool :=
  ttIds t == ttIds u

/-- `__lt__`: `self.ids < other.ids`. -/
def ttLt (t u : TupleTuple) : Bool :=
  decide (ttIds t < ttIds u)

/-!
## The RA predicate fragment and the `logic_or_false` rewrite rule
(`relational_algebra.py`, `relational_algebra_optimizers.py`)

`And` and `Or` are variadic matchpy operations with `one_identity = True`
(constructing them with a single operand yields that operand).  The rule

    logic_or_false = ReplacementRule(
        Pattern(Or(BoolFalse(), plus_a)),
        lambda plus_a: And(*plus_a))

removes one `BoolFalse` operand of an `Or` (commutative matching) and
rebuilds the remaining operands — with the `And` constructor.  Predicates
are executed by the `ra2ast` compilation: `And` becomes a Python `and` over
its operands, `Or` a Python `or`, and `Equal(Column, constant)` a comparison
of the resolved column value against the constant.
-/

/-- RA predicate terms (the fragment the `logic_or_false` rule touches).
`colEq i v` is `Equal(Column(...), constant)` with the column already
resolved to index `i` against the stage registry. -/
inductive Pred where
  | btrue : Pred
  | bfalse : Pred
  | colEq (i : Nat) (v : Value) : Pred
  | andP (ps : List Pred) : Pred
  | orP (ps : List Pred) : Pred
deriving Repr

/-- matchpy `one_identity` construction of `And`: `And(p) = p`. -/
def mkAnd : List Pred → Pred
  | [p] => p
  | ps => .andP ps

/-- matchpy `one_identity` construction of `Or`: `Or(p) = p`. -/
def mkOr : List Pred → Pred
  | [p] => p
  | ps => .orP ps

/-- Commutative matching of the `BoolFalse()` pattern operand: remove one
`BoolFalse` from the operand list. -/
def removeFirstFalse : List Pred → Option (List Pred)
  | [] => none
  | .bfalse :: rest => some rest
  | p :: rest => (removeFirstFalse rest).map fun l => p :: l

/-- One application of the `logic_or_false` rule: on `Or(BoolFalse(), p…)`
(with `p…` nonempty, a plus wildcard) it returns `And(*p…)` — exactly as the
source builds it. -/
def logicOrFalseRw : Pred → Option Pred
  | .orP ops =>
    match removeFirstFalse ops with
    | some rest => if rest.isEmpty then none else some (mkAnd rest)
    | none => none
  | _ => none

mutual

/-- Execution semantics of a compiled predicate on one row (`ra2ast`):
`And` compiles to Python `and`, `Or` to `or`, `Equal` to `==`. -/
def evalPred (r : Row) : Pred → Bool
  | .btrue => true
  | .bfalse => false
  | .colEq i v => rowKey i r == v
  | .andP ps => evalPredAll r ps
  | .orP ps => evalPredAny r ps

def evalPredAll (r : Row) : List Pred → Bool
  | [] => true
  | p :: ps => evalPred r p && evalPredAll r ps

def evalPredAny (r : Row) : List Pred → Bool
  | [] => false
  | p :: ps => evalPred r p || evalPredAny r ps

end

/-- `Filter.produce` (`iterator.py`): yield the rows passing the test. -/
def filterProduce (test : Row → Bool) (rows : List Row) : List Row :=
  rows.filter test

/-!
## Sort-merge joins (`iterator.py`, classes `InnerMerge`, `LeftMerge`)

`InnerMerge.produce` advances two sorted streams in lock-step.  A row whose
join key is `None` is skipped.  On a key match it emits the pair, then (via
`itertools.tee`) emits the following left rows with the same key paired with
the matched right row and the following right rows with the same key paired
with the matched left row, and finally advances both primary streams one
step past the originally matched rows.  The `while` conditions
(`a and b`, `next_a and …`) are Python truthiness tests, so an empty tuple
also stops them.

`LeftMerge.produce` differs in that an unmatched left row smaller than the
right head is emitted padded with a tuple of `None`s of the right side's
column width — and in that it has no `None`-key skipping.  It has no
trailing loop: when the right stream is exhausted the `while a and b` loop
exits and any remaining left rows are silently dropped (contrast
`RightMerge.produce`, which ends with `while b: yield TupleTuple(left_empty_tuple, b)`).
-/

/-- `InnerMerge.produce` over the two sorted input row lists, join columns
`i` and `j`; outputs are the (left, right) pairs behind each emitted
`TupleTuple`. -/
def innerMergeProduce (i j : Nat) (A B : List Row) : List (Row × Row) :=
  match A, B with
  | [], _ => []
  | _ :: _, [] => []
  | a :: as, b :: bs =>
    if !truthyRow a || !truthyRow b then []
    else if rowKey i a = Value.vnull then innerMergeProduce i j as (b :: bs)
    else if rowKey j b = Value.vnull then innerMergeProduce i j (a :: as) bs
    else if Value.ltB (rowKey i a) (rowKey j b) then
      innerMergeProduce i j as (b :: bs)
    else if Value.ltB (rowKey j b) (rowKey i a) then
      innerMergeProduce i j (a :: as) bs
    else
      ((a, b) ::
        (as.takeWhile fun x => truthyRow x && (rowKey i x == rowKey j b)).map
          fun x => (x, b)) ++
      ((bs.takeWhile fun y => truthyRow y && (rowKey i a == rowKey j y)).map
          fun y => (a, y)) ++
      innerMergeProduce i j as bs
termination_by A.length + B.length
decreasing_by all_goals simp_arith

/-- `LeftMerge.produce`: output rows flattened, an unmatched left row padded
with `w` `None`s (`right_empty_tuple`, `w` = right side's column count). -/
def leftMergeProduce (i j w : Nat) (A B : List Row) : List Row :=
  match A, B with
  | [], _ => []
  | _ :: _, [] => []
  | a :: as, b :: bs =>
    if !truthyRow a || !truthyRow b then []
    else if Value.ltB (rowKey i a) (rowKey j b) then
      (a ++ List.replicate w Value.vnull) :: leftMergeProduce i j w as (b :: bs)
    else if Value.ltB (rowKey j b) (rowKey i a) then
      leftMergeProduce i j w (a :: as) bs
    else
      ((a ++ b) ::
        (as.takeWhile fun x => truthyRow x && (rowKey i x == rowKey j b)).map
          fun x => x ++ b) ++
      ((bs.takeWhile fun y => truthyRow y && (rowKey i a == rowKey j y)).map
          fun y => a ++ y) ++
      leftMergeProduce i j w as bs
termination_by A.length + B.length
decreasing_by all_goals simp_arith

/-- The number of pairs `(x, y)` of `A × B` with `x[i] = y[j] ≠ Null` — the
reference count the specification gives for `MergeInnerJoin`. -/
def matchPairCount (i j : Nat) (A B : List Row) : Nat :=
  (A.map fun x =>
    B.countP fun y =>
      decide (rowKey i x ≠ Value.vnull) && (rowKey i x == rowKey j y)).sum

/-- "Not greater on the join key": the relation whose chain captures a stream
sorted ascending on join column `i` (Nulls first, per the total value
order). -/
def keyGE (i : Nat) (x y : Row) : Prop :=
  Value.ltB (rowKey i y) (rowKey i x) = false

instance (i : Nat) : DecidableRel (keyGE i) := fun _ _ =>
  inferInstanceAs (Decidable (_ = _))

instance (i : Nat) : IsTrans Row (keyGE i) :=
  ⟨fun _ _ _ hab hbc => Value.ltB_false_trans hab hbc⟩

/-- The stream is sorted ascending on join column `i`. -/
def sortedOnKey (i : Nat) (l : List Row) : Prop :=
  l.Chain' (keyGE i)

/-- Executable check for `sortedOnKey`. -/
def sortedOnKeyB (i : Nat) : List Row → Bool
  | [] => true
  | [_] => true
  | x :: y :: rest =>
    !Value.ltB (rowKey i y) (rowKey i x) && sortedOnKeyB i (y :: rest)

theorem sortedOnKeyB_iff (i : Nat) :
    ∀ l : List Row, sortedOnKeyB i l = true ↔ sortedOnKey i l := by
  intro l
  match l with
  | [] => simp [sortedOnKeyB, sortedOnKey]
  | [x] => simp [sortedOnKeyB, sortedOnKey]
  | x :: y :: rest =>
    rw [sortedOnKey, List.chain'_cons, ← sortedOnKey,
      ← sortedOnKeyB_iff i (y :: rest)]
    simp [sortedOnKeyB, keyGE]

instance (i : Nat) (l : List Row) : Decidable (sortedOnKey i l) :=
  decidable_of_iff _ (sortedOnKeyB_iff i l)

theorem countP_ext {α : Type} (p q : α → Bool) :
    ∀ l : List α, (∀ x ∈ l, p x = q x) → l.countP p = l.countP q := by
  intro l
  induction l with
  | nil => intro _; rfl
  | cons x xs ih =>
    intro h
    rw [List.countP_cons, List.countP_cons, h x (by simp),
      ih fun y hy => h y (by simp [hy])]

theorem takeWhile_ext {α : Type} (p q : α → Bool) :
    ∀ l : List α, (∀ x ∈ l, p x = q x) → l.takeWhile p = l.takeWhile q := by
  intro l
  induction l with
  | nil => intro _; rfl
  | cons x xs ih =>
    intro h
    rw [List.takeWhile_cons, List.takeWhile_cons, h x (by simp),
      ih fun y hy => h y (by simp [hy])]

/-- On a stream sorted on key `k` whose members are all `≥ v`, the prefix of
key `v` contains every row of key `v`: the `itertools.tee` duplicate loops of
the merge joins see exactly the rows with the matched key. -/
theorem takeWhile_key_length (k : Row → Value) (v : Value) :
    ∀ l : List Row,
      l.Pairwise (fun x y => Value.ltB (k y) (k x) = false) →
      (∀ x ∈ l, Value.ltB (k x) v = false) →
      (l.takeWhile fun x => k x == v).length =
        l.countP fun x => k x == v := by
  intro l
  induction l with
  | nil => intro _ _; rfl
  | cons x xs ih =>
    intro hp hlow
    have hp2 := List.pairwise_cons.mp hp
    by_cases hx : k x = v
    · have hbeq : (k x == v) = true := by simp [hx]
      have hlow2 : ∀ y ∈ xs, Value.ltB (k y) v = false := fun y hy =>
        hlow y (by simp [hy])
      have hrec := ih hp2.2 hlow2
      rw [List.takeWhile_cons, List.countP_cons]
      simp [hbeq, hrec]
    · have hbeq : (k x == v) = false := by simp [hx]
      have hvx : Value.ltB v (k x) = true := by
        cases hvx : Value.ltB v (k x) with
        | true => rfl
        | false =>
          exact absurd (Value.ltB_connex (hlow x (by simp)) hvx) hx
      have hzero : xs.countP (fun y => k y == v) = 0 := by
        rw [List.countP_eq_zero]
        intro y hy
        simp only [beq_iff_eq]
        intro hyv
        have hyx : Value.ltB (k y) (k x) = false := hp2.1 y hy
        rw [hyv] at hyx
        rw [hvx] at hyx
        exact Bool.noConfusion hyx
      rw [List.takeWhile_cons, List.countP_cons]
      simp [hbeq, hzero]

theorem matchPairCount_cons_left (i j : Nat) (a : Row) (A B : List Row) :
    matchPairCount i j (a :: A) B =
      (B.countP fun y =>
        decide (rowKey i a ≠ Value.vnull) && (rowKey i a == rowKey j y)) +
      matchPairCount i j A B := by
  simp [matchPairCount]

theorem matchPairCount_cons_right (i j : Nat) (b : Row) :
    ∀ A : List Row, ∀ bs : List Row,
      matchPairCount i j A (b :: bs) =
        (A.countP fun x =>
          decide (rowKey i x ≠ Value.vnull) && (rowKey i x == rowKey j b)) +
        matchPairCount i j A bs := by
  intro A bs
  induction A with
  | nil => simp [matchPairCount]
  | cons x xs ih =>
    rw [matchPairCount_cons_left, matchPairCount_cons_left, ih,
      List.countP_cons, List.countP_cons]
    omega

theorem matchPairCount_nil_right (i j : Nat) :
    ∀ A : List Row, matchPairCount i j A [] = 0 := by
  intro A
  induction A with
  | nil => rfl
  | cons x xs ih =>
    rw [matchPairCount_cons_left, ih]
    simp

/-- Core count lemma for `InnerMerge.produce`: on streams sorted ascending on
their join columns (Nulls first) whose rows all reach the join column, the
number of emitted pairs is the number of key-matching pairs with non-Null
key.  (No hypothesis about duplicates is needed.) -/
theorem innerMerge_count_aux (i j : Nat) :
    ∀ A B : List Row, sortedOnKey i A → sortedOnKey j B →
      (∀ r ∈ A, i < r.length) → (∀ r ∈ B, j < r.length) →
      (innerMergeProduce i j A B).length = matchPairCount i j A B := by
  intro A B
  induction A, B using innerMergeProduce.induct i j with
  | case1 B =>
    intro _ _ _ _
    simp [innerMergeProduce, matchPairCount]
  | case2 a as =>
    intro _ _ _ _
    simp [innerMergeProduce, matchPairCount_nil_right]
  | case3 a as b bs htr =>
    intro _ _ hAl hBl
    exfalso
    have ha : truthyRow a = true := by
      have hlen := hAl a (by simp)
      cases a with
      | nil => simp at hlen
      | cons _ _ => rfl
    have hb : truthyRow b = true := by
      have hlen := hBl b (by simp)
      cases b with
      | nil => simp at hlen
      | cons _ _ => rfl
    rw [ha, hb] at htr
    simp at htr
  | case4 a as b bs htr hnulla ih =>
    intro hA hB hAl hBl
    have hrec := ih (List.Chain'.tail hA) hB
      (fun r hr => hAl r (by simp [hr])) hBl
    simp only [innerMergeProduce]
    rw [if_neg htr, if_pos hnulla]
    rw [matchPairCount_cons_left]
    have hz : ((b :: bs).countP fun y =>
        decide (rowKey i a ≠ Value.vnull) && (rowKey i a == rowKey j y)) = 0 := by
      rw [List.countP_eq_zero]
      intro y _
      simp [hnulla]
    rw [hz, hrec]
    omega
  | case5 a as b bs htr hnulla hnullb ih =>
    intro hA hB hAl hBl
    have hrec := ih hA (List.Chain'.tail hB) hAl
      (fun r hr => hBl r (by simp [hr]))
    simp only [innerMergeProduce]
    rw [if_neg htr, if_neg hnulla, if_pos hnullb]
    rw [matchPairCount_cons_right]
    have hz : ((a :: as).countP fun x =>
        decide (rowKey i x ≠ Value.vnull) && (rowKey i x == rowKey j b)) = 0 := by
      rw [List.countP_eq_zero]
      intro x _
      by_cases hcx : rowKey i x = Value.vnull <;> simp [hcx, hnullb]
    rw [hz, hrec]
    omega
  | case6 a as b bs htr hnulla hnullb hlt ih =>
    intro hA hB hAl hBl
    have hrec := ih (List.Chain'.tail hA) hB
      (fun r hr => hAl r (by simp [hr])) hBl
    have hpB2 := List.pairwise_cons.mp ((List.chain'_iff_pairwise).mp hB)
    simp only [innerMergeProduce]
    rw [if_neg htr, if_neg hnulla, if_neg hnullb, if_pos hlt]
    rw [matchPairCount_cons_left]
    have hz : ((b :: bs).countP fun y =>
        decide (rowKey i a ≠ Value.vnull) && (rowKey i a == rowKey j y)) = 0 := by
      rw [List.countP_eq_zero]
      intro y hy
      simp only [Bool.and_eq_true, decide_eq_true_eq, beq_iff_eq, not_and]
      intro _ hay
      rcases List.mem_cons.mp hy with rfl | hybs
      · rw [← hay] at hlt
        rw [Value.ltB_irrefl] at hlt
        exact Bool.noConfusion hlt
      · have h2 : Value.ltB (rowKey j y) (rowKey j b) = false := hpB2.1 y hybs
        rw [← hay] at h2
        rw [hlt] at h2
        exact Bool.noConfusion h2
    rw [hz, hrec]
    omega
  | case7 a as b bs htr hnulla hnullb hnlt hgt ih =>
    intro hA hB hAl hBl
    have hrec := ih hA (List.Chain'.tail hB) hAl
      (fun r hr => hBl r (by simp [hr]))
    have hpA2 := List.pairwise_cons.mp ((List.chain'_iff_pairwise).mp hA)
    simp only [innerMergeProduce]
    rw [if_neg htr, if_neg hnulla, if_neg hnullb, if_neg hnlt, if_pos hgt]
    rw [matchPairCount_cons_right]
    have hz : ((a :: as).countP fun x =>
        decide (rowKey i x ≠ Value.vnull) && (rowKey i x == rowKey j b)) = 0 := by
      rw [List.countP_eq_zero]
      intro x hx
      simp only [Bool.and_eq_true, decide_eq_true_eq, beq_iff_eq, not_and]
      intro _ hxb
      rcases List.mem_cons.mp hx with rfl | hxas
      · rw [hxb] at hgt
        rw [Value.ltB_irrefl] at hgt
        exact Bool.noConfusion hgt
      · have h2 : Value.ltB (rowKey i x) (rowKey i a) = false := hpA2.1 x hxas
        rw [hxb] at h2
        rw [hgt] at h2
        exact Bool.noConfusion h2
    rw [hz, hrec]
    omega
  | case8 a as b bs htr hnulla hnullb hnlt hngt ih =>
    intro hA hB hAl hBl
    have hlt : Value.ltB (rowKey i a) (rowKey j b) = false := by
      revert hnlt
      cases Value.ltB (rowKey i a) (rowKey j b) <;> simp
    have hgt : Value.ltB (rowKey j b) (rowKey i a) = false := by
      revert hngt
      cases Value.ltB (rowKey j b) (rowKey i a) <;> simp
    have hkey : rowKey i a = rowKey j b := Value.ltB_connex hlt hgt
    have hpA2 := List.pairwise_cons.mp ((List.chain'_iff_pairwise).mp hA)
    have hpB2 := List.pairwise_cons.mp ((List.chain'_iff_pairwise).mp hB)
    have htas : ∀ x ∈ as, truthyRow x = true := by
      intro x hx
      have hlen := hAl x (by simp [hx])
      cases x with
      | nil => simp at hlen
      | cons _ _ => rfl
    have htbs : ∀ y ∈ bs, truthyRow y = true := by
      intro y hy
      have hlen := hBl y (by simp [hy])
      cases y with
      | nil => simp at hlen
      | cons _ _ => rfl
    have hrec := ih (List.Chain'.tail hA) (List.Chain'.tail hB)
      (fun r hr => hAl r (by simp [hr])) (fun r hr => hBl r (by simp [hr]))
    have hdA : (as.takeWhile fun x =>
          truthyRow x && (rowKey i x == rowKey j b)).length =
        as.countP fun x =>
          decide (rowKey i x ≠ Value.vnull) && (rowKey i x == rowKey j b) := by
      rw [takeWhile_ext _ (fun x => rowKey i x == rowKey j b) as
        (fun x hx => by simp [htas x hx])]
      rw [takeWhile_key_length (rowKey i) (rowKey j b) as hpA2.2
        (fun x hx => by
          have h2 : Value.ltB (rowKey i x) (rowKey i a) = false := hpA2.1 x hx
          rw [hkey] at h2
          exact h2)]
      apply countP_ext
      intro x _
      by_cases hcx : rowKey i x = rowKey j b
      · simp [hcx, hnullb]
      · have hb1 : (rowKey i x == rowKey j b) = false := by simp [hcx]
        simp [hb1]
    have hdB : (bs.takeWhile fun y =>
          truthyRow y && (rowKey i a == rowKey j y)).length =
        bs.countP fun y =>
          decide (rowKey i a ≠ Value.vnull) && (rowKey i a == rowKey j y) := by
      rw [takeWhile_ext _ (fun y => rowKey j y == rowKey i a) bs
        (fun y hy => by
          have ht := htbs y hy
          by_cases hcy : rowKey j y = rowKey i a
          · simp [ht, hcy]
          · have hcy2 : rowKey i a ≠ rowKey j y := fun hh => hcy hh.symm
            simp [ht, hcy, hcy2])]
      rw [takeWhile_key_length (rowKey j) (rowKey i a) bs hpB2.2
        (fun y hy => by
          have h2 : Value.ltB (rowKey j y) (rowKey j b) = false := hpB2.1 y hy
          rw [← hkey] at h2
          exact h2)]
      apply countP_ext
      intro y _
      by_cases hcy : rowKey j y = rowKey i a
      · simp [hcy, hnulla]
      · have hb1 : (rowKey j y == rowKey i a) = false := by simp [hcy]
        have hb2 : (rowKey i a == rowKey j y) = false := by
          simp
          exact fun hh => hcy hh.symm
        simp [hb1, hb2]
    have hpab : (decide (rowKey i a ≠ Value.vnull) &&
        (rowKey i a == rowKey j b)) = true := by
      simp [hnulla, hkey, hnullb]
    simp only [innerMergeProduce]
    rw [if_neg htr, if_neg hnulla, if_neg hnullb, if_neg hnlt, if_neg hngt]
    rw [matchPairCount_cons_left, matchPairCount_cons_right,
      List.countP_cons]
    simp only [hpab, if_true, List.length_append, List.length_cons,
      List.length_map]
    rw [hdA, hdB, hrec]
    omega

/-!
## Column resolution (`column.py`) and `Project` lowering (`ra2iter.py`)

`ColumnRegistry._get_column_from_identifier` strips backticks from the
requested identifier, then tries: exact identifier match; match on the last
dot-segment (`c.identifier.split('.')[-1]`); and, when the request has at
least three dot-segments, an exact match on its last two segments (the regex
`^.+\.(.*\..*)$`).  Only if all three passes fail does it raise
`UnknownColumn`.

`ColumnRegistry.columnidentifiers_to_columnidxs` resolves each identifier,
*catching and discarding* `UnknownColumn` per identifier, and raises
`HasNoColumns` only when no identifier resolved.

The `Project` arm of `ra2iter` builds `SelectColumns` (whose constructor
calls `columnidentifiers_to_columnidxs`) and catches `HasNoColumns`, falling
back to the unprojected relation.
-/

inductive ColError where
  | unknownColumn : ColError
  | hasNoColumns : ColError
deriving DecidableEq, Repr

deriving instance DecidableEq for Except

/-- A column identifier, embedded as its character sequence (a Python
`str`); `(·).data` turns a Lean string literal into one. -/
abbrev Ident := List Char

/-- `column_identifier.replace('`', '')`. -/
def stripBackticks (s : Ident) : Ident :=
  s.filter fun c => c != '`'

/-- Python `str.split('.')`: split on the dot character (never returns an
empty list). -/
def splitDotsAux : List Char → List Char → List Ident
  | [], acc => [acc.reverse]
  | c :: rest, acc =>
    if c = '.' then acc.reverse :: splitDotsAux rest []
    else splitDotsAux rest (c :: acc)

def splitDots (s : Ident) : List Ident := splitDotsAux s []

/-- Python `'.'.join(...)`. -/
def joinDots : List Ident → Ident
  | [] => []
  | [x] => x
  | x :: rest => x ++ '.' :: joinDots rest

/-- `identifier.split('.')[-1]`. -/
def lastSegment (s : Ident) : Ident := (splitDots s).getLastD []

/-- The group of the regex `^.+\.(.*\..*)$` (greedy `.+`, backtracking):
the last two dot-segments, defined exactly when the identifier has at least
three segments. -/
def shortIdentifier (s : Ident) : Option Ident :=
  let segs := splitDots s
  if 3 ≤ segs.length then
    some (joinDots (segs.drop (segs.length - 2)))
  else none

/-- `ColumnRegistry.get_column_idx_from_identifier`: the registry is the
ordered list of the column identifiers of `self.columns`. -/
def getColumnIdxFromIdentifier (reg : List Ident) (cid0 : Ident) :
    Except ColError Nat :=
  let cid := stripBackticks cid0
  match reg.findIdx? (fun c => c == cid) with
  | some idx => .ok idx
  | none =>
    match reg.findIdx? (fun c => lastSegment c == cid) with
    | some idx => .ok idx
    | none =>
      match shortIdentifier cid with
      | some sid =>
        match reg.findIdx? (fun c => c == sid) with
        | some idx => .ok idx
        | none => .error .unknownColumn
      | none => .error .unknownColumn

/-- `ColumnRegistry.columnidentifiers_to_columnidxs`: unresolved identifiers
are silently dropped (`except UnknownColumn: pass`); `HasNoColumns` is
raised only when nothing resolved. -/
def columnidentifiersToColumnidxs (reg : List Ident) (cids : List Ident) :
    Except ColError (List Nat) :=
  let idxs := cids.filterMap fun cid =>
    (getColumnIdxFromIdentifier reg cid).toOption
  if idxs.isEmpty then .error .hasNoColumns else .ok idxs

/-- The `Project` arm of `ra2iter` applied to the child's produced rows:
build `SelectColumns` (whose constructor resolves the identifiers and whose
`produce` picks the resolved indices out of every row); on `HasNoColumns`
fall back to the unprojected relation.  An `UnknownColumn` escaping
`columnidentifiers_to_columnidxs` would propagate — but it never escapes. -/
def projectLowerProduce (reg : List Ident) (cids : List Ident)
    (rows : List Row) : Except ColError (List Row) :=
  match columnidentifiersToColumnidxs reg cids with
  | .ok idxs => .ok (rows.map fun r => idxs.map fun idx => r.getD idx Value.vnull)
  | .error .hasNoColumns => .ok rows
  | .error e => .error e

/-!
## `Union` lowering (`ra2iter.py`)

    @ra2iter.register
    def _(a: ra.Union, tables):
        assert(len(a.operands) == 2)
        return iterator.DistinctMerge(
            iterator.SortedById(ra2iter(a.operands[0], tables)),
            iterator.SortedById(ra2iter(a.operands[1], tables)))
-/

/-- Shape of a lowered plan fragment, enough to state what the `Union` arm
builds. -/
inductive PlanIter where
  | base (rows : List Row) : PlanIter
  | sortedById (s : PlanIter) : PlanIter
  | distinctMerge (a b : PlanIter) : PlanIter
deriving DecidableEq, Repr

inductive PlanError where
  | assertionError : PlanError
deriving DecidableEq, Repr

/-- The `ra.Union` arm of `ra2iter`, over the already-lowered operands: the
`assert` fires before any iterator is built or any row produced. -/
def ra2iterUnion (ops : List PlanIter) : Except PlanError PlanIter :=
  match ops with
  | [a, b] => .ok (.distinctMerge (.sortedById a) (.sortedById b))
  | _ => .error .assertionError

/-!
## `Table` lowering and `Tee` (`ra2iter.py`, `iterator.py`)

    @ra2iter.register
    def _(a: ra.Table, tables):
        identifier = a.table_identifier
        table = tables[identifier]
        if not hasattr(table, 'tee'):
            table = iterator.Tee(table)
            tables[identifier] = table
        else:
            tables[identifier] = table.tee()
        return tables[identifier]

The first reference wraps the registered provider in a `Tee`
(`Tee.__init__` without `source_iterator` calls the provider's `produce()`
once and tees it).  Every later reference calls `.tee()` on whatever the
dict currently holds — which is the tap created by the *previous* reference,
not the first `Tee` — and stores the new tap back into the dict.  `tee()`
asserts `seen == 0`, so all taps are created during planning before anything
is consumed, and each tap's stream is a fresh `itertools.tee` branch of the
single underlying scan, yielding the full row sequence.
-/

/-- What a `Tee` was constructed over. -/
inductive TeeSource where
  | provider : TeeSource
  | tee (tid : Nat) : TeeSource
deriving DecidableEq, Repr

/-- One `Tee` created during lowering: its id (1-based, in creation order),
its source, and the row sequence its tap will yield. -/
structure TeeNode where
  tid : Nat
  src : TeeSource
  rows : List Row
deriving DecidableEq, Repr

/-- Planning state for one table identifier: how many times the provider's
`produce()` has been invoked, the `Tee`s created so far, and the current
`tables[identifier]` entry. -/
structure TablesState where
  produceCalls : Nat
  tees : List TeeNode
  current : Option Nat
deriving DecidableEq, Repr

/-- One execution of the `ra.Table` arm of `ra2iter`. -/
def ra2iterTableStep (providerRows : List Row) (s : TablesState) :
    TablesState × Nat :=
  match s.current with
  | none =>
    let t : TeeNode := ⟨s.tees.length + 1, .provider, providerRows⟩
    (⟨s.produceCalls + 1, s.tees ++ [t], some t.tid⟩, t.tid)
  | some cur =>
    let t : TeeNode := ⟨s.tees.length + 1, .tee cur, providerRows⟩
    (⟨s.produceCalls, s.tees ++ [t], some t.tid⟩, t.tid)

/-- The planning state after `n` references to the same table identifier. -/
def runTableRefs (providerRows : List Row) : Nat → TablesState
  | 0 => ⟨0, [], none⟩
  | n + 1 => (ra2iterTableStep providerRows (runTableRefs providerRows n)).1

/-- Invariant of the `ra.Table` lowering state: after `n ≥ 1` references the
provider has been scanned once, `n` `Tee`s exist, the dict holds the latest
one, and tee `k` wraps tee `k - 1` (tee `1` wraps the provider) while every
tap yields the full provider sequence. -/
theorem runTableRefs_spec (rows : List Row) :
    ∀ n : Nat, 1 ≤ n →
      (runTableRefs rows n).produceCalls = 1 ∧
      (runTableRefs rows n).tees.length = n ∧
      (runTableRefs rows n).current = some n ∧
      ∀ t ∈ (runTableRefs rows n).tees,
        t.rows = rows ∧
        t.src = (if t.tid = 1 then TeeSource.provider
                 else TeeSource.tee (t.tid - 1)) := by
  intro n
  induction n with
  | zero => intro h; exact absurd h (by omega)
  | succ m ih =>
    intro _
    by_cases hm : 1 ≤ m
    · obtain ⟨h1, h2, h3, h4⟩ := ih hm
      refine ⟨?_, ?_, ?_, ?_⟩ <;>
        simp only [runTableRefs, ra2iterTableStep, h3]
      · exact h1
      · simp [h2]
      · simp [h2]
      · intro t ht
        rcases List.mem_append.mp ht with hold | hnew
        · exact h4 t hold
        · have hts : t = ⟨(runTableRefs rows m).tees.length + 1, .tee m, rows⟩ := by
            simpa using hnew
          subst hts
          refine ⟨rfl, ?_⟩
          rw [h2]
          have hne : ¬(m + 1 = 1) := by omega
          simp [hne]
    · have hm0 : m = 0 := by omega
      subst hm0
      refine ⟨rfl, rfl, rfl, ?_⟩
      intro t ht
      have hts : t = ⟨1, .provider, rows⟩ := by
        simpa [runTableRefs, ra2iterTableStep] using ht
      subst hts
      exact ⟨rfl, rfl⟩

/-!
## Claim theorems
-/

/-- C1: the spec claims `optimize(T)` is always equivalent to `T`.  The
`logic_or_false` rule refutes this: it rewrites `Or(BoolFalse, p, q)` to
`And(p, q)` (the source's lambda builds `And(*plus_a)`), and filtering the
rows `(5), (6), (7)` through the original disjunction keeps `(5), (6)` while
the rewritten conjunction keeps nothing — a different result set. -/
theorem C1_optimize_not_semantics_preserving :
    logicOrFalseRw
        (Pred.orP [.bfalse, .colEq 0 (.vint 5), .colEq 0 (.vint 6)]) =
      some (Pred.andP [.colEq 0 (.vint 5), .colEq 0 (.vint 6)]) ∧
    filterProduce
        (fun r => evalPred r
          (Pred.orP [.bfalse, .colEq 0 (.vint 5), .colEq 0 (.vint 6)]))
        [[.vint 5], [.vint 6], [.vint 7]] =
      [[Value.vint 5], [Value.vint 6]] ∧
    filterProduce
        (fun r => evalPred r
          (Pred.andP [.colEq 0 (.vint 5), .colEq 0 (.vint 6)]))
        [[.vint 5], [.vint 6], [.vint 7]] = [] :=
  ⟨rfl, rfl, rfl⟩

/-- C2: the spec says `MergeLeftJoin` emits every unmatched left row padded
with Nulls, including left rows remaining after the right side is exhausted.
`LeftMerge.produce` has no trailing loop (contrast `RightMerge.produce`), so
on left rows `(1), (5)` against right rows `(1)` it emits only `(1, 1)` and
drops `(5)` instead of emitting `(5, Null)`. -/
theorem C2_left_merge_drops_tail :
    leftMergeProduce 0 0 1 [[.vint 1], [.vint 5]] [[.vint 1]] =
      [[Value.vint 1, Value.vint 1]] ∧
    [[Value.vint 1, Value.vint 1], [Value.vint 5, Value.vnull]] ≠
      [[Value.vint 1, Value.vint 1]] := by
  constructor
  · simp [leftMergeProduce, truthyRow, rowKey, Value.ltB]
  · decide

/-- C3: the claim (and spec rule 8) says the Or-with-False rule yields the
`Or` of the remaining predicates.  The source's `logic_or_false` builds
`And(*plus_a)` instead: with two remaining predicates the result is an `And`
node, not an `Or` node (with one remaining predicate, `one_identity`
collapses both to the predicate itself, hiding the slip). -/
theorem C3_logic_or_false_builds_and :
    logicOrFalseRw
        (Pred.orP [.bfalse, .colEq 0 (.vint 5), .colEq 0 (.vint 6)]) =
      some (Pred.andP [.colEq 0 (.vint 5), .colEq 0 (.vint 6)]) ∧
    Pred.andP [.colEq 0 (.vint 5), .colEq 0 (.vint 6)] ≠
      Pred.orP [.colEq 0 (.vint 5), .colEq 0 (.vint 6)] ∧
    logicOrFalseRw (Pred.orP [.bfalse, .colEq 0 (.vint 5)]) =
      some (.colEq 0 (.vint 5)) :=
  ⟨rfl, fun h => Pred.noConfusion h, rfl⟩

/-- C4 counterexample: `Cross` sets its `sorted` flag whenever both inputs
declare sorted, yet over the sorted inputs `(1), (1)` and `(1), (2)` it
emits `(1,1), (1,2), (1,1), (1,2)` — not non-decreasing — with the flag
true.  So an iterator whose `sorted` flag is true may emit decreasing rows,
contradicting the claim. -/
theorem C4_cross_sorted_flag_unsound :
    (crossIter ⟨[[.vint 1], [.vint 1]], true⟩
        ⟨[[.vint 1], [.vint 2]], true⟩).sorted = true ∧
    nonDecreasingRows [[Value.vint 1], [Value.vint 1]] ∧
    nonDecreasingRows [[Value.vint 1], [Value.vint 2]] ∧
    ¬ nonDecreasingRows
        (crossIter ⟨[[.vint 1], [.vint 1]], true⟩
          ⟨[[.vint 1], [.vint 2]], true⟩).rows := by
  refine ⟨rfl, by decide, by decide, by decide⟩

/-- C4 (amended): the flags are as the code computes them — `Cross` is
flagged sorted whenever both inputs are, `Tee` unconditionally — but a true
flag only guarantees non-decreasing output in the spec-granted cases: a
`Cross` of two single-row sides, and a `Tee` whose source stream is itself
non-decreasing (Tee replays its source unchanged). -/
theorem C4_sorted_flags_amended :
    (∀ a b : SimpleIter, (crossIter a b).sorted = (a.sorted && b.sorted)) ∧
    (∀ s : SimpleIter, (teeIter s).sorted = true) ∧
    (∀ a b : SimpleIter, ∀ ra rb : Row, a.rows = [ra] → b.rows = [rb] →
      nonDecreasingRows (crossIter a b).rows) ∧
    (∀ s : SimpleIter, nonDecreasingRows s.rows →
      nonDecreasingRows (teeIter s).rows) := by
  refine ⟨fun a b => rfl, fun s => rfl, ?_, fun s h => h⟩
  intro a b ra rb ha hb
  simp [crossIter, crossProduce, ha, hb, nonDecreasingRows]

theorem C4_sorted_flags_amended_witness :
    nonDecreasingRows
      (crossIter ⟨[[Value.vint 3]], true⟩ ⟨[[Value.vint 4]], true⟩).rows ∧
    nonDecreasingRows (teeIter ⟨[[Value.vint 2], [Value.vint 9]], true⟩).rows :=
  ⟨C4_sorted_flags_amended.2.2.1 _ _ [Value.vint 3] [Value.vint 4] rfl rfl,
   C4_sorted_flags_amended.2.2.2 _ (by decide)⟩

/-- C5: for `InnerMerge.produce` over streams sorted ascending on their join
columns (Null keys first, every row reaching its join column), with
duplicate keys on at most one side, the number of emitted rows equals the
number of pairs with equal non-Null keys; in particular Null-keyed rows are
skipped and contribute nothing.  (The proof does not even need the
duplicate proviso.) -/
theorem C5_inner_merge_count (i j : Nat) (A B : List Row)
    (hA : sortedOnKey i A) (hB : sortedOnKey j B)
    (hAl : ∀ r ∈ A, i < r.length) (hBl : ∀ r ∈ B, j < r.length)
    (hdup : ∀ x ∈ A,
      ¬(2 ≤ A.countP (fun r => rowKey i r == rowKey i x) ∧
        2 ≤ B.countP (fun r => rowKey j r == rowKey i x))) :
    (innerMergeProduce i j A B).length = matchPairCount i j A B :=
  innerMerge_count_aux i j A B hA hB hAl hBl

theorem C5_inner_merge_count_witness :
    (innerMergeProduce 0 0
        [[Value.vnull], [Value.vint 1], [Value.vint 2], [Value.vint 2]]
        [[Value.vint 1], [Value.vint 2], [Value.vint 3]]).length =
      matchPairCount 0 0
        [[Value.vnull], [Value.vint 1], [Value.vint 2], [Value.vint 2]]
        [[Value.vint 1], [Value.vint 2], [Value.vint 3]] ∧
    matchPairCount 0 0
        [[Value.vnull], [Value.vint 1], [Value.vint 2], [Value.vint 2]]
        [[Value.vint 1], [Value.vint 2], [Value.vint 3]] = 3 :=
  ⟨C5_inner_merge_count 0 0 _ _ (by decide) (by decide) (by decide)
    (by decide) (by decide), by decide⟩

/-- C6: `Limit(n)` composed over `Offset(m)` yields exactly the window
`[m, m + n)` of the source rows, in order: the result is
`(rows.drop m).take n`, and position `k` of the output is position `m + k`
of the source for `k < n` and absent otherwise. -/
theorem C6_limit_offset_window (n m : Nat) (rows : List Row) :
    limitProduce n (offsetProduce m rows) = (rows.drop m).take n ∧
    ∀ k : Nat, (limitProduce n (offsetProduce m rows))[k]? =
      if k < n then rows[m + k]? else none := by
  have h1 : limitProduce n (offsetProduce m rows) = (rows.drop m).take n := by
    rw [limitProduce, offsetProduce, limitProduceAux_eq_take,
      offsetProduceAux_eq_drop]
    simp
  refine ⟨h1, ?_⟩
  intro k
  rw [h1]
  by_cases hk : k < n
  · rw [if_pos hk, List.getElem?_take_of_lt hk, List.getElem?_drop]
  · rw [if_neg hk]
    rw [List.getElem?_eq_none]
    have := List.length_take n (rows.drop m)
    omega

/-- C7: the claim (and the repository's own test
`test_select_nonexisting_column_gives_error`) says a reference to an unknown
column aborts planning with `UnknownColumn`.  The code swallows it: the
per-identifier lookup does raise `UnknownColumn`, but
`columnidentifiers_to_columnidxs` catches it and drops the identifier,
raising `HasNoColumns` only when nothing resolved — which the `Project`
lowering catches, falling back to the unprojected relation, so
`SELECT nonexisting FROM OneToFive` produces every row instead of aborting;
with at least one resolvable identifier the unknown one is silently
ignored. -/
theorem C7_unknown_column_swallowed :
    getColumnIdxFromIdentifier ["OneToFive.val".data] "nonexisting".data =
      .error .unknownColumn ∧
    columnidentifiersToColumnidxs ["OneToFive.val".data]
      ["nonexisting".data] = .error .hasNoColumns ∧
    projectLowerProduce ["OneToFive.val".data] ["nonexisting".data]
      [[Value.vint 1], [Value.vint 2]] = .ok [[Value.vint 1], [Value.vint 2]] ∧
    columnidentifiersToColumnidxs ["A.val".data, "A.w".data]
      ["A.val".data, "bogus".data] = .ok [0] :=
  ⟨by decide, by decide, by decide, by decide⟩

/-- C8 counterexample: the claim says every subsequent reference to a table
id taps the *same* `Tee` created at the first reference.  After three
references, the third `Tee` was created over the second (`tables[identifier]
= table.tee()` stores each new tap back into the dict), not over the
first. -/
theorem C8_third_reference_taps_second_tee :
    (runTableRefs [[Value.vint 1]] 3).tees =
      [⟨1, .provider, [[Value.vint 1]]⟩, ⟨2, .tee 1, [[Value.vint 1]]⟩,
       ⟨3, .tee 2, [[Value.vint 1]]⟩] ∧
    TeeSource.tee 2 ≠ TeeSource.tee 1 := by
  refine ⟨rfl, by decide⟩

/-- C8 (amended): the first reference wraps the provider in a `Tee`; each
subsequent reference returns a fresh tap of the *most recently created* tap,
forming a chain rather than fanning out of the first `Tee`.  The provider's
`produce()` is still invoked exactly once, and every tap yields the complete
row sequence of the source. -/
theorem C8_tee_chain_amended (rows : List Row) (n : Nat) (hn : 1 ≤ n) :
    (runTableRefs rows n).produceCalls = 1 ∧
    (runTableRefs rows n).tees.length = n ∧
    ∀ t ∈ (runTableRefs rows n).tees,
      t.rows = rows ∧
      t.src = (if t.tid = 1 then TeeSource.provider
               else TeeSource.tee (t.tid - 1)) := by
  obtain ⟨h1, h2, _, h4⟩ := runTableRefs_spec rows n hn
  exact ⟨h1, h2, h4⟩

theorem C8_tee_chain_amended_witness :
    (runTableRefs [[Value.vint 7]] 2).produceCalls = 1 ∧
    (runTableRefs [[Value.vint 7]] 2).tees.length = 2 ∧
    ∀ t ∈ (runTableRefs [[Value.vint 7]] 2).tees,
      t.rows = [[Value.vint 7]] ∧
      t.src = (if t.tid = 1 then TeeSource.provider
               else TeeSource.tee (t.tid - 1)) :=
  C8_tee_chain_amended [[Value.vint 7]] 2 (by decide)

/-- C9 counterexample: two composite rows built from parent tuples with
equal values but distinct object identities flatten to the same value
sequence, yet `TupleTuple.__eq__` (which compares the parents' ids) says
they are not equal — refuting "equal as rows exactly when their flattened
value sequences are equal". -/
theorem C9_composite_equality_is_by_identity :
    ttFlatten ⟨[⟨0, [Value.vint 1]⟩, ⟨1, [Value.vint 2]⟩]⟩ =
      ttFlatten ⟨[⟨2, [Value.vint 1]⟩, ⟨3, [Value.vint 2]⟩]⟩ ∧
    ttEq ⟨[⟨0, [Value.vint 1]⟩, ⟨1, [Value.vint 2]⟩]⟩
      ⟨[⟨2, [Value.vint 1]⟩, ⟨3, [Value.vint 2]⟩]⟩ = false := by
  refine ⟨rfl, rfl⟩

/-- C9 (amended): a composite row's length, indexing and iteration agree
with the concatenation of its parents' values (indexing returns `none`
exactly where Python raises `IndexError`), but equality compares the
parents' object identities, not the flattened values: two composite rows
are `__eq__`-equal exactly when their parent id tuples coincide. -/
theorem C9_composite_row_amended :
    (∀ t : TupleTuple, ttLen t = (ttFlatten t).length) ∧
    (∀ t : TupleTuple, ∀ k : Nat, ttGet t k = (ttFlatten t)[k]?) ∧
    (∀ t u : TupleTuple, ttEq t u = true ↔ ttIds t = ttIds u) := by
  refine ⟨?_, ?_, ?_⟩
  · intro t
    rcases t with ⟨l⟩
    induction l with
    | nil => rfl
    | cons tup rest ih =>
      simp only [ttLen, ttFlatten, List.map_cons, List.sum_cons,
        List.flatMap_cons, List.length_append] at *
      omega
  · intro t k
    rcases t with ⟨l⟩
    induction l generalizing k with
    | nil => simp [ttGet, ttGetAux, ttFlatten]
    | cons tup rest ih =>
      simp only [ttGet, ttGetAux, ttFlatten, List.flatMap_cons] at *
      by_cases hk : k < tup.vals.length
      · rw [if_pos hk, List.get?_eq_getElem?, List.getElem?_append, if_pos hk]
      · rw [if_neg hk, List.getElem?_append, if_neg hk]
        exact ih (k - tup.vals.length)
  · intro t u
    simp [ttEq]

/-- C10: the `Union` arm of `ra2iter` asserts exactly two operands before
building any iterator: with two lowered operands the assertion passes and a
`DistinctMerge` of the two `SortedById`-wrapped sides is returned; with
three or more operands lowering fails the assertion during planning, before
any row is produced. -/
theorem C10_union_lowering_arity :
    (∀ ops : List PlanIter, ops.length = 2 →
      ∃ it, ra2iterUnion ops = .ok it) ∧
    (∀ ops : List PlanIter, 3 ≤ ops.length →
      ra2iterUnion ops = .error .assertionError) := by
  constructor
  · intro ops h
    match ops, h with
    | [a, b], _ => exact ⟨_, rfl⟩
  · intro ops h
    cases ops with
    | nil => simp at h
    | cons a t =>
      cases t with
      | nil => simp at h
      | cons b t2 =>
        cases t2 with
        | nil => simp at h
        | cons c t3 => rfl

theorem C10_union_lowering_arity_witness :
    (∃ it, ra2iterUnion [.base [], .base []] = .ok it) ∧
    ra2iterUnion [.base [], .base [], .base []] =
      .error .assertionError :=
  ⟨C10_union_lowering_arity.1 _ (by decide),
   C10_union_lowering_arity.2 _ (by decide)⟩

end Sqlhild
